import Mathlib

/-!
Verification development for `blib.py`, a personal bibliographic library
manager.  The Python source is shallowly embedded below: pure string
manipulation is translated to executable functions over `List Char`
(Python `str` values), Python dicts become association lists looked up
with last-write-wins semantics (`lookupLast`), filesystem state is passed
explicitly, and code that can raise (`KeyError`, parse failures) returns
`Except`.  Regular-expression operations from the source are translated
to their exact operational behaviour on the specific patterns the source
uses, as documented at each definition.
-/

/-! ## Generic helpers: Python dict and str semantics -/

/-- Lookup modelling Python dict construction from a key/value sequence:
the *last* binding for a key wins (`dict(pairs)[k]`, and likewise a dict
built by repeated assignment `d[k] = v`). -/
def lookupLast {κ α : Type} [BEq κ] (l : List (κ × α)) (k : κ) : Option α :=
  (l.reverse.find? (fun p => p.1 == k)).map Prod.snd

/-- Python `dict(pairs)` as an association list with unique keys: one pair
per distinct key, carrying the value of that key's last occurrence. -/
def pydict {α : Type} (l : List (String × α)) : List (String × α) :=
  (l.map Prod.fst).dedup.filterMap (fun id => (lookupLast l id).map (fun v => (id, v)))

/-- Prepend a character to the first piece of a split result
(helper for the char-level splitting functions below). -/
def consHead (c : Char) : List (List Char) → List (List Char)
  | [] => [[c]]
  | l :: ls => (c :: l) :: ls

/-- Python `s.split(sep)` for a single-character separator `sep`. -/
def splitOnChar (sep : Char) : List Char → List (List Char)
  | [] => [[]]
  | c :: rest => if c = sep then [] :: splitOnChar sep rest else consHead c (splitOnChar sep rest)

/-- Python `s.split(' and ')`: split on the literal five-character
delimiter, scanning left to right, non-overlapping. -/
def splitAnd : List Char → List (List Char)
  | ' ' :: 'a' :: 'n' :: 'd' :: ' ' :: rest => [] :: splitAnd rest
  | c :: rest => consHead c (splitAnd rest)
  | [] => [[]]

/-- Python `s.split()` (no argument): split on runs of whitespace,
producing no empty words. -/
def splitWsAux : List Char → List Char → List (List Char)
  | [], [] => []
  | [], acc => [acc.reverse]
  | c :: rest, acc =>
    if c.isWhitespace then
      (if acc.isEmpty then splitWsAux rest [] else acc.reverse :: splitWsAux rest [])
    else splitWsAux rest (c :: acc)

/-- Python `s.split()` (no argument). -/
def splitWs (s : List Char) : List (List Char) := splitWsAux s []

/-- Python `s.strip()`: remove leading and trailing whitespace. -/
def pyStrip (s : List Char) : List Char :=
  ((s.dropWhile Char.isWhitespace).reverse.dropWhile Char.isWhitespace).reverse

/-- Python `' '.join(words)`. -/
def joinSpaces : List (List Char) → List Char
  | [] => []
  | [w] => w
  | w :: ws => w ++ ' ' :: joinSpaces ws

/-- Split a character stream at every newline character (the pieces do not
contain the newlines).  `splitNL s` always ends with the (possibly empty)
piece after the last newline. -/
def splitNL : List Char → List (List Char)
  | [] => [[]]
  | c :: rest => if c = '\n' then [] :: splitNL rest else consHead c (splitNL rest)

/-- The lines of a newline-terminated file body: Python `readlines` with
the trailing newlines stripped.  For a file that ends in a newline (or is
empty), the piece after the last newline is empty and is dropped. -/
def fileLines (s : List Char) : List (List Char) := (splitNL s).dropLast

/-- Render a list of lines into a newline-terminated file body. -/
def renderLines (ls : List (List Char)) : List Char :=
  ls.foldr (fun l acc => l ++ '\n' :: acc) []

/-- ASCII character-class tests mirroring the source's regex classes
(`[A-Z]`, `[a-z]`, `[0-9]`, `[A-Za-z]`, `[0-9A-Za-z]`). -/
def isAsciiUpper (c : Char) : Bool := 'A' ≤ c && c ≤ 'Z'

/-- ASCII `[a-z]`. -/
def isAsciiLower (c : Char) : Bool := 'a' ≤ c && c ≤ 'z'

/-- ASCII `[0-9]`. -/
def isAsciiDigit (c : Char) : Bool := '0' ≤ c && c ≤ '9'

/-- ASCII `[A-Za-z]`. -/
def isAsciiLetter (c : Char) : Bool := isAsciiUpper c || isAsciiLower c

/-- ASCII `[0-9A-Za-z]`. -/
def isAsciiAlnum (c : Char) : Bool := isAsciiDigit c || isAsciiLetter c

/-! ## Data model -/

/-- One bibliographic entry: the attribute mapping parsed from BibTeX
(including the synthetic `type` attribute), plus the `tags` value merged in
from the tag store after parsing (`none` when the entry has no tag line).
Attributes are kept as the parsed key/value sequence; `getAttr` applies
Python-dict lookup semantics to it. -/
structure Entry where
  attrs : List (String × String)
  tags : Option (List String)
deriving DecidableEq

/-- A parsed library: entry-id to entry.  Kept as the underlying pair
sequence; dict lookups go through `lookupLast`. -/
abbrev Library := List (String × Entry)

/-- Python `entry[k]` / `k in entry` on an entry's attribute dict. -/
def getAttr (e : Entry) (k : String) : Option String := lookupLast e.attrs k

/-- The `WEIRD_NAMES` table from the source: organizational author names
mapped to the abbreviation used when deriving entry ids. -/
def WEIRD_NAMES : List (String × String) :=
  [("Computing Research Association", "CRA"),
   ("Liberal Arts Computer Science Consortium", "LACS"),
   ("The College Board", "CB"),
   ("The Join Task Force on Computing Curricula", "JTFCC"),
   ("others", ""),
   ("\x7bGoogle Inc.\x7d", "Google"),
   ("\x7bGallup Inc.\x7d", "Gallup"),
   ("\x7bNational Academies of Sciences, Engineering, and Medicine\x7d", "NASEM"),
   ("\x7bUMBEL Project\x7d", "UMBEL"),
   ("\x7bthe ABC Research Group\x7d", "ABC")]

/-- Python `s in WEIRD_NAMES` (key membership). -/
def isWeird (s : String) : Bool := (List.lookup s WEIRD_NAMES).isSome

/-! ## BibTeX parser postprocessing (`BibTexWalker._parse_BibtexFile`)

The grammar walk produces a list of `(entry_id, attributes)` pairs, one
per `BibtexEntry` in source order.  `_parse_BibtexFile` counts the ids,
prints one `duplicate IDs` diagnostic for every id whose count exceeds
one (walking `Counter.most_common()`, which is sorted by decreasing
count, and stopping at the first count of 1), and returns `dict(results)`. -/

/-- The id of each parsed entry, in source order. -/
def idOccurrences (results : List (String × Entry)) : List String := results.map Prod.fst

/-- `Counter(kv[0] for kv in results)` as a list of (id, count) pairs,
one per distinct id. -/
def idCounts (results : List (String × Entry)) : List (String × Nat) :=
  (idOccurrences results).dedup.map (fun id => (id, (idOccurrences results).count id))

/-- `Counter.most_common()`: the (id, count) pairs sorted by decreasing
count.  (The tie-breaking order among equal counts is irrelevant to every
property proved below.) -/
def mostCommon (results : List (String × Entry)) : List (String × Nat) :=
  List.insertionSort (fun a b => b.2 ≤ a.2) (idCounts results)

/-- The reporting loop of `_parse_BibtexFile`: walk the most-common list,
`break` on the first count equal to 1, print each id before that. -/
def reportLoop : List (String × Nat) → List String
  | [] => []
  | (id, c) :: rest => if c = 1 then [] else id :: reportLoop rest

/-- The ids named in `duplicate IDs:` diagnostics, in print order. -/
def duplicateDiagnostics (results : List (String × Entry)) : List String :=
  reportLoop (mostCommon results)

/-! ## Tag store (`_read_tags`, `do_tag`) -/

/-- Processing of one line of the tag file by `_read_tags`: strip it,
skip it when blank, otherwise `entry_id, *tags = line.split(' ')`. -/
def parseTagLine (line : List Char) : Option (List Char × List (List Char)) :=
  let l := pyStrip line
  if l = [] then none
  else
    match splitOnChar ' ' l with
    | [] => none
    | tid :: tags => some (tid, tags)

/-- The (id, tags) pairs read from the tag file's lines, in file order. -/
def tagEntries (lines : List (List Char)) : List (List Char × List (List Char)) :=
  lines.filterMap parseTagLine

/-- `_read_tags()[id]`: the dict is built by `result[entry_id] = set(tags)`
line by line, so the lookup has last-write-wins semantics. -/
def readTags (lines : List (List Char)) (id : List Char) : Option (List (List Char)) :=
  lookupLast (tagEntries lines) id

/-- The single line `do_tag` writes: `' '.join([filepath.stem, *tags])`. -/
def tagLine (stem : List Char) (tags : List (List Char)) : List Char :=
  joinSpaces (stem :: tags)

/-- `do_tag`'s effect on the tag file: the file is opened in append mode
and the joined line plus a newline is written, so the new file content is
the old content followed by that one line. -/
def do_tag_append (content stem : List Char) (tags : List (List Char)) : List Char :=
  content ++ tagLine stem tags ++ ['\n']

/-! ## Entry cache and tag merge (`read_library`) -/

/-- The filesystem facts `read_library` consults: whether the cache file
exists, its modification time, the BibTeX source's modification time, and
the library a cache read would deserialize. -/
structure FsState where
  cacheExists : Bool
  cacheMtime : Nat
  sourceMtime : Nat
  cachedLibrary : Library
deriving DecidableEq

/-- Observable outcome of a successful `read_library` call: the returned
library, whether the BibTeX parser ran, what (if anything) was serialized
to the cache file, and whether the cache's parent directories were created
(`makedirs`). -/
structure ReadResult where
  library : Library
  parserInvoked : Bool
  cacheWritten : Option Library
  dirsCreated : Bool
deriving DecidableEq

/-- Lines 202-209 of the source: if `use_cache` and the cache file exists
and is strictly newer than the source, deserialize and return it;
otherwise create the cache's parent directories, run the parser (a parse
failure propagates), and serialize the parsed library to the cache. -/
def loadLibrary (useCache : Bool) (st : FsState) (parse : Except String Library) :
    Except String ReadResult :=
  if useCache = true ∧ st.cacheExists = true ∧ st.sourceMtime < st.cacheMtime then
    .ok ⟨st.cachedLibrary, false, none, false⟩
  else
    match parse with
    | .error e => .error e
    | .ok lib => .ok ⟨lib, true, some lib, true⟩

/-- Lines 210-213 of the source: for every id in the tag mapping that is
present in the library, set that entry's `tags`; ids with no matching
entry are ignored. -/
def mergeTags (lib : Library) (tags : List (String × List String)) : Library :=
  tags.foldl
    (fun acc p =>
      if (acc.map Prod.fst).contains p.1 then
        acc.map (fun q => if q.1 = p.1 then (q.1, { q.2 with tags := some p.2 }) else q)
      else acc)
    lib

/-- `read_library`: load via the cache (lines 201-209), then merge the
tag mapping into the result (lines 210-214).  The cache write happens
before the merge, so the serialized cache never contains tags. -/
def read_libraryM (useCache : Bool) (st : FsState) (parse : Except String Library)
    (tags : List (String × List String)) : Except String ReadResult :=
  match loadLibrary useCache st parse with
  | .error e => .error e
  | .ok r => .ok { r with library := mergeTags r.library tags }

/-! ## Lint pass 1: name-format check (source lines 234-255)

For `author` and `editor`: skip a missing attribute, skip a value that is
itself a `WEIRD_NAMES` key, split the value on `' and '`, and flag it when
any person that is not a `WEIRD_NAMES` key lacks a comma.  Only whether a
diagnostic is printed is modelled; its suggested-rewrite text is not. -/

/-- Whether the name-format check prints a diagnostic for one
author/editor value. -/
def nameCheckFlags (value : String) : Bool :=
  if isWeird value then false
  else
    (splitAnd value.toList).any
      (fun person => !isWeird (String.mk person) && !person.contains ',')

/-- The name-format diagnostics for one entry (one element per flagged
attribute). -/
def nameCheckEntry (id : String) (e : Entry) : List String :=
  ["author", "editor"].filterMap
    (fun attr =>
      match getAttr e attr with
      | none => none
      | some v =>
        if nameCheckFlags v then some ("non-conforming " ++ attr ++ "s in " ++ id) else none)

/-! ## Lint pass 2: ID-derivation check (source lines 256-273) -/

/-- `re.sub(r'\\.{(.)}', r'\1', s)`: each non-overlapping occurrence of a
backslash, any non-newline character, an opening brace, any non-newline
character and a closing brace is replaced by the braced character,
scanning left to right. -/
def stripAccents : List Char → List Char
  | '\\' :: c :: '\x7b' :: d :: '\x7d' :: rest =>
    if c ≠ '\n' ∧ d ≠ '\n' then d :: stripAccents rest
    else '\\' :: stripAccents (c :: '\x7b' :: d :: '\x7d' :: rest)
  | c :: rest => c :: stripAccents rest
  | [] => []

/-- The text before the first `' and '` of an author value
(`author.split(' and ')[0]`). -/
def firstAuthorRaw (author : String) : List Char :=
  (splitAnd author.toList).headD []

/-- The first-author string used to derive an entry id (lines 258-262):
a whole-value `WEIRD_NAMES` key maps to its abbreviation; otherwise the
first `' and '`-separated author is looked up in `WEIRD_NAMES`, with the
text before its first comma as the fallback. -/
def firstAuthorName (author : String) : List Char :=
  match List.lookup author WEIRD_NAMES with
  | some v => v.toList
  | none =>
    let fa := firstAuthorRaw author
    match List.lookup (String.mk fa) WEIRD_NAMES with
    | some v => v.toList
    | none => (splitOnChar ',' fa).headD []

/-- The derived entry id (lines 263-265): first author + year + title,
accent escapes `\X{c}` reduced to `c`, all characters outside
`[0-9A-Za-z]` removed. -/
def deriveId (author year title : String) : List Char :=
  (stripAccents (firstAuthorName author ++ year.toList ++ title.toList)).filter isAsciiAlnum

/-- `re.search('[0-9]+$', s)`: true exactly when the last character is an
ASCII digit. -/
def endsWithDigit (s : List Char) : Bool :=
  match s.getLast? with
  | some c => isAsciiDigit c
  | none => false

/-- `re.sub('[0-9]+$', '', s)`: remove the maximal trailing digit run. -/
def stripTrailingDigits (s : List Char) : List Char :=
  (s.reverse.dropWhile isAsciiDigit).reverse

/-- The characters of the literal suffix `Thesis`. -/
def thesisChars : List Char := ['T', 'h', 'e', 's', 'i', 's']

/-- `re.search('Thesis$', s)`. -/
def endsWithThesis (s : List Char) : Bool := thesisChars.isSuffixOf s

/-- `re.sub('Thesis$', '', s)`: remove one trailing `Thesis`. -/
def stripTrailingThesis (s : List Char) : List Char :=
  if endsWithThesis s then s.take (s.length - 6) else s

/-- One iteration of the suffix-stripping `while` body (lines 267-269):
strip a trailing digit run, then a trailing `Thesis`, in the order of
`ID_SUFFIXES`. -/
def stripSuffixStep (s : List Char) : List Char :=
  stripTrailingThesis (stripTrailingDigits s)

/-- The suffix-stripping `while` loop, run with a fuel counter.  Every
iteration whose guard holds strictly shortens the string (see
`stripSuffixStep_shorter`), so `s.length` steps always reach the loop's
fixpoint; `stripSuffixes_unfold` below proves this definition satisfies
the loop's defining equation. -/
def stripSuffixesFuel : Nat → List Char → List Char
  | 0, s => s
  | n + 1, s =>
    if endsWithDigit s || endsWithThesis s then stripSuffixesFuel n (stripSuffixStep s)
    else s

/-- Lines 266-269: repeatedly strip trailing digit runs and `Thesis`
suffixes until neither matches. -/
def stripSuffixes (s : List Char) : List Char := stripSuffixesFuel s.length s

/-- Line 270: the suspicious-ID condition,
`not entry_id.lower().startswith(current_id.lower())` with `entry_id` the
derived id and `current_id` the suffix-stripped stored id.  Python
`str.lower` on the ASCII ids at hand is `Char.toLower` characterwise. -/
def idSuspicious (cid author year title : String) : Bool :=
  !((stripSuffixes cid.toList).map Char.toLower).isPrefixOf
      ((deriveId author year title).map Char.toLower)

/-- The ID-derivation check for one entry.  `entry['author']` (line 258),
`entry['year']` and `entry['title']` (line 263) are plain subscripts: a
missing attribute raises `KeyError`, modelled as `Except.error`. -/
def idCheckEntry (cid : String) (entry : Entry) : Except String (List String) :=
  match getAttr entry "author" with
  | none => .error ("KeyError: author in " ++ cid)
  | some author =>
    match getAttr entry "year" with
    | none => .error ("KeyError: year in " ++ cid)
    | some year =>
      match getAttr entry "title" with
      | none => .error ("KeyError: title in " ++ cid)
      | some title =>
        .ok (if idSuspicious cid author year title then ["suspicious ID: " ++ cid] else [])

/-! ## Lint pass 4: title-quoting check (source lines 279-294) -/

/-- One pass of `re.sub('{[^{}]*}', '', title)`.  A match is an opening
brace whose next brace character is a closing brace; matches are found
left to right and are non-overlapping.  The scan keeps an accumulator of
the characters seen since the most recent candidate opening brace (in
reverse); hitting another opening brace flushes the candidate literally
and restarts it, hitting a closing brace discards the whole group. -/
def subBraceAux : List Char → Option (List Char) → List Char
  | [], none => []
  | [], some acc => '\x7b' :: acc.reverse
  | c :: rest, none =>
    if c = '\x7b' then subBraceAux rest (some [])
    else c :: subBraceAux rest none
  | c :: rest, some acc =>
    if c = '\x7b' then '\x7b' :: acc.reverse ++ subBraceAux rest (some [])
    else if c = '\x7d' then subBraceAux rest none
    else subBraceAux rest (some (c :: acc))

/-- One pass of `re.sub('{[^{}]*}', '', title)`. -/
def subBraceOnce (s : List Char) : List Char := subBraceAux s none

/-- `re.search('{[^{}]*}', title)` as a scan with an inside-a-candidate
flag.  The search succeeds exactly when some opening brace is later
followed by a closing brace with no opening brace in between. -/
def hasBraceAux : List Char → Bool → Bool
  | [], _ => false
  | c :: rest, inside =>
    if c = '\x7b' then hasBraceAux rest true
    else if c = '\x7d' then (inside || hasBraceAux rest false)
    else hasBraceAux rest inside

/-- `re.search('{[^{}]*}', title)` as a Bool. -/
def hasBraceGroup (s : List Char) : Bool := hasBraceAux s false

/-- The brace-stripping `while changed` loop (lines 281-286), run with a
fuel counter.  Every pass whose guard holds strictly shortens the string
(see `subBraceOnce_shorter`), so `s.length` passes always reach the
fixpoint; `stripBraces_unfold` below proves the loop's defining
equation. -/
def stripBracesFuel : Nat → List Char → List Char
  | 0, s => s
  | n + 1, s => if hasBraceGroup s then stripBracesFuel n (subBraceOnce s) else s

/-- Lines 281-286: repeatedly remove brace groups until none remains. -/
def stripBraces (s : List Char) : List Char := stripBracesFuel s.length s

/-- The hyphen-stripping substitution of line 290, a `re.sub` whose
pattern is the class hyphen-or-slash followed by `[A-Z]`, replaced by the
empty string: remove each non-overlapping occurrence of a hyphen or slash
followed by one ASCII capital. -/
def stripHyphenCaps : List Char → List Char
  | c :: d :: rest =>
    if (c = '-' || c = '/') && isAsciiUpper d then stripHyphenCaps rest
    else c :: stripHyphenCaps (d :: rest)
  | s => s

/-- `len(re.findall('[A-Za-z][A-Z]', word))`: the number of
non-overlapping matches of an ASCII letter followed by an ASCII
capital. -/
def countLetterUpper : List Char → Nat
  | c :: d :: rest =>
    if isAsciiLetter c && isAsciiUpper d then countLetterUpper rest + 1
    else countLetterUpper (d :: rest)
  | _ => 0

/-- The word loop of the title-quoting check (lines 287-294): skip words
containing an opening brace; flag the entry and `break` at the first word
whose stripped form has more than one letter-capital match. -/
def titleLoop : List (List Char) → Bool
  | [] => false
  | w :: ws =>
    if w.contains '\x7b' then titleLoop ws
    else if 1 < countLetterUpper (stripHyphenCaps w) then true
    else titleLoop ws

/-- Whether the title-quoting check flags a title. -/
def titleFlag (title : List Char) : Bool := titleLoop (splitWs (stripBraces title))

/-- The title-quoting check for one entry; `entry['title']` (line 280) is
a plain subscript, so a missing title raises `KeyError`. -/
def titleCheckEntry (cid : String) (entry : Entry) : Except String (List String) :=
  match getAttr entry "title" with
  | none => .error ("KeyError: title in " ++ cid)
  | some title =>
    .ok (if titleFlag title.toList then ["unquoted title for " ++ cid] else [])

/-- Modelled from the spec: the title-word predicate as §4.4 rule 4 and
claim C4 word it, counting only lowercase-letter-then-uppercase-letter
transitions.  Stated only to compare against the source's `titleFlag`;
the source counts matches of `[A-Za-z][A-Z]`, whose first letter may also
be uppercase. -/
def countLowerUpper : List Char → Nat
  | c :: d :: rest =>
    if isAsciiLower c && isAsciiUpper d then countLowerUpper rest + 1
    else countLowerUpper (d :: rest)
  | _ => 0

/-- Modelled from the spec: whether the spec's wording of the
title-quoting heuristic flags a title (see `countLowerUpper`). -/
def specTitleFlag (title : List Char) : Bool :=
  (splitWs (stripBraces title)).any
    (fun w => !w.contains '\x7b' && decide (1 < countLowerUpper (stripHyphenCaps w)))

/-! ## `do_lint` (source lines 231-294)

The pass over the parsed entries, with the local `.pdf` stem index
passed in for the orphan-file check.  The four passes run in source
order; a `KeyError` in the ID-derivation or title-quoting pass aborts the
whole run. -/

/-- `do_lint` over a library and the local file index: the printed
diagnostics, or the exception that aborted the run. -/
def do_lint (entries : List (String × Entry)) (fileIndex : List String) :
    Except String (List String) :=
  let nameDiags := (entries.map (fun p => nameCheckEntry p.1 p.2)).flatten
  match entries.mapM (fun p => idCheckEntry p.1 p.2) with
  | .error e => .error e
  | .ok idDiags =>
    let orphanDiags :=
      (fileIndex.filter (fun s => !((entries.map Prod.fst).contains s))).map
        (fun s => "missing entry for file " ++ s)
    match entries.mapM (fun p => titleCheckEntry p.1 p.2) with
    | .error e => .error e
    | .ok titleDiags => .ok (nameDiags ++ idDiags.flatten ++ orphanDiags ++ titleDiags.flatten)

/-! ## Remote reconciler (`do_diff`, source lines 373-404)

The subprocess output is abstracted to the (stem, md5) pairs parsed from
each side's `find -exec md5sum` output; the source stores them into
`hashes[stem][location]`, so a repeated stem on one side keeps its last
hash (`lookupLast`), and the stems considered are the union of both
sides' stems. -/

/-- Python `<` on strings as compared by `sorted`: lexicographic on code
points. -/
def pyStrLtChars : List Char → List Char → Bool
  | [], [] => false
  | [], _ :: _ => true
  | _ :: _, [] => false
  | c :: cs, d :: ds => if c = d then pyStrLtChars cs ds else decide (c.toNat < d.toNat)

/-- Python `<` on strings. -/
def pyStrLt (s t : String) : Bool := pyStrLtChars s.toList t.toList

/-- Python `<=` on strings. -/
def pyStrLe (s t : String) : Bool := pyStrLt s t || s == t

/-- The distinct stems appearing on either side. -/
def allStems (localH remoteH : List (String × String)) : List String :=
  (localH.map Prod.fst ++ remoteH.map Prod.fst).dedup

/-- Lines 396-402, the classification of one stem given each side's hash:
no local hash yields `>`, no remote hash yields `<`, differing hashes
yield `!`, equal hashes yield no line. -/
def diffSymbol : Option String → Option String → Option Char
  | none, _ => some '>'
  | some _, none => some '<'
  | some lh, some rh => if lh ≠ rh then some '!' else none

/-- Lines 390-404: classify every stem and print the symbol lines sorted
by stem (Python `sorted` on the (stem, symbol) pairs, which with distinct
stems is string order on the stems). -/
def do_diff (localH remoteH : List (String × String)) : List (String × Char) :=
  (List.insertionSort (fun a b => pyStrLe a b = true) (allStems localH remoteH)).filterMap
    (fun s => (diffSymbol (lookupLast localH s) (lookupLast remoteH s)).map (fun c => (s, c)))

/-! ## Helper lemmas: `lookupLast` -/

theorem lookupLast_eq_none {κ α : Type} [BEq κ] [LawfulBEq κ] (l : List (κ × α)) (k : κ) :
    lookupLast l k = none ↔ ∀ p ∈ l, p.1 ≠ k := by
  simp [lookupLast]

theorem lookupLast_last {κ α : Type} [BEq κ] [LawfulBEq κ] (pre post : List (κ × α)) (k : κ)
    (v : α) (h : ∀ p ∈ post, p.1 ≠ k) : lookupLast (pre ++ (k, v) :: post) k = some v := by
  have hpost : post.reverse.find? (fun p => p.1 == k) = none := by
    simp only [List.find?_eq_none, List.mem_reverse]
    intro p hp
    simpa using h p hp
  simp [lookupLast, List.reverse_append, List.find?_append, hpost]

theorem lookupLast_mem_keys {κ α : Type} [BEq κ] [LawfulBEq κ] (l : List (κ × α)) (k : κ)
    (h : k ∈ l.map Prod.fst) : (lookupLast l k).isSome := by
  rw [← Option.ne_none_iff_isSome]
  intro hnone
  rcases List.mem_map.mp h with ⟨p, hp, hfst⟩
  exact (lookupLast_eq_none l k).mp hnone p hp hfst

/-! ## Helper lemmas: file lines and joining (tag store) -/

theorem splitNL_line_append (w rest : List Char) (hw : ('\n' : Char) ∉ w) :
    splitNL (w ++ '\n' :: rest) = w :: splitNL rest := by
  induction w with
  | nil => simp [splitNL]
  | cons c cs ih =>
    have hc : c ≠ '\n' := by rintro rfl; exact hw (List.mem_cons_self _ _)
    have hcs : ('\n' : Char) ∉ cs := fun h => hw (List.mem_cons_of_mem _ h)
    simp [splitNL, hc, ih hcs, consHead]

theorem splitNL_renderLines (ls : List (List Char)) (h : ∀ l ∈ ls, ('\n' : Char) ∉ l) :
    splitNL (renderLines ls) = ls ++ [[]] := by
  induction ls with
  | nil => simp [renderLines, splitNL]
  | cons l ls ih =>
    have hl := h l (List.mem_cons_self _ _)
    have hls : ∀ x ∈ ls, ('\n' : Char) ∉ x := fun x hx => h x (List.mem_cons_of_mem _ hx)
    have hr : renderLines (l :: ls) = l ++ '\n' :: renderLines ls := rfl
    rw [hr, splitNL_line_append _ _ hl, ih hls]
    simp

theorem fileLines_renderLines (ls : List (List Char)) (h : ∀ l ∈ ls, ('\n' : Char) ∉ l) :
    fileLines (renderLines ls) = ls := by
  simp [fileLines, splitNL_renderLines ls h]

theorem renderLines_foldr_suffix (ls : List (List Char)) (suf : List Char) :
    ls.foldr (fun l acc => l ++ '\n' :: acc) suf = renderLines ls ++ suf := by
  induction ls with
  | nil => simp [renderLines]
  | cons l ls ih => simp [renderLines, ih, List.append_assoc]

theorem renderLines_concat (ls : List (List Char)) (w : List Char) :
    renderLines (ls ++ [w]) = renderLines ls ++ (w ++ ['\n']) := by
  rw [renderLines, List.foldr_append, renderLines_foldr_suffix]
  rfl

theorem joinSpaces_no_newline (ws : List (List Char)) (h : ∀ w ∈ ws, ('\n' : Char) ∉ w) :
    ('\n' : Char) ∉ joinSpaces ws := by
  induction ws with
  | nil => simp [joinSpaces]
  | cons w ws ih =>
    cases ws with
    | nil => simpa [joinSpaces] using h w (List.mem_cons_self _ _)
    | cons v vs =>
      have hj : joinSpaces (w :: v :: vs) = w ++ ' ' :: joinSpaces (v :: vs) := rfl
      rw [hj]
      intro hmem
      rcases List.mem_append.mp hmem with h1 | h2
      · exact h w (List.mem_cons_self _ _) h1
      · rcases List.mem_cons.mp h2 with h3 | h4
        · exact absurd h3 (by decide)
        · exact ih (fun x hx => h x (List.mem_cons_of_mem _ hx)) h4

/-! ## Helper lemmas: the suffix-stripping loop reaches its fixpoint -/

theorem endsWithDigit_reverse (s : List Char) :
    endsWithDigit s =
      (match s.reverse with
       | [] => false
       | c :: _ => isAsciiDigit c) := by
  unfold endsWithDigit
  rw [List.getLast?_eq_head?_reverse]
  cases s.reverse <;> simp

theorem stripTrailingDigits_eq_self (s : List Char) (h : endsWithDigit s = false) :
    stripTrailingDigits s = s := by
  rw [endsWithDigit_reverse] at h
  unfold stripTrailingDigits
  cases hr : s.reverse with
  | nil =>
    have hs : s = [] := by simpa using congrArg List.reverse hr
    subst hs
    simp
  | cons c t =>
    rw [hr] at h
    have hs : s = (c :: t).reverse := by simpa using congrArg List.reverse hr
    rw [List.dropWhile_cons_of_neg (by simpa using h), ← hs]

theorem stripTrailingDigits_lt (s : List Char) (h : endsWithDigit s = true) :
    (stripTrailingDigits s).length < s.length := by
  rw [endsWithDigit_reverse] at h
  unfold stripTrailingDigits
  cases hr : s.reverse with
  | nil => simp [hr] at h
  | cons c t =>
    rw [hr] at h
    have hlen : s.length = t.length + 1 := by
      have := congrArg List.length hr
      simpa [Nat.add_comm] using this
    rw [List.dropWhile_cons_of_pos (by simpa using h)]
    calc ((t.dropWhile isAsciiDigit).reverse).length
        ≤ t.length := by simpa using (List.dropWhile_sublist isAsciiDigit (l := t)).length_le
      _ < s.length := by omega

theorem stripTrailingThesis_length (s : List Char) :
    (stripTrailingThesis s).length ≤ s.length := by
  unfold stripTrailingThesis
  split
  · simp
  · exact Nat.le_refl _

theorem stripTrailingThesis_lt (s : List Char) (h : endsWithThesis s = true) :
    (stripTrailingThesis s).length < s.length := by
  have h6 : 6 ≤ s.length := by
    have hs : thesisChars <:+ s := by
      simpa [endsWithThesis] using h
    simpa [thesisChars] using hs.length_le
  unfold stripTrailingThesis
  rw [if_pos h]
  simp only [List.length_take]
  omega

theorem stripSuffixStep_shorter (s : List Char) (h : (endsWithDigit s || endsWithThesis s) = true) :
    (stripSuffixStep s).length < s.length := by
  unfold stripSuffixStep
  cases hd : endsWithDigit s with
  | true =>
    exact Nat.lt_of_le_of_lt (stripTrailingThesis_length _) (stripTrailingDigits_lt s hd)
  | false =>
    have ht : endsWithThesis s = true := by simpa [hd] using h
    rw [stripTrailingDigits_eq_self s hd]
    exact stripTrailingThesis_lt s ht

theorem stripSuffixesFuel_irrel (n : Nat) : ∀ (m : Nat) (s : List Char), s.length ≤ n →
    s.length ≤ m → stripSuffixesFuel n s = stripSuffixesFuel m s := by
  induction n with
  | zero =>
    intro m s hn _
    have : s = [] := List.length_eq_zero.mp (Nat.le_zero.mp hn)
    subst this
    cases m <;> simp [stripSuffixesFuel, endsWithDigit, endsWithThesis, thesisChars]
  | succ n ih =>
    intro m s hn hm
    cases m with
    | zero =>
      have : s = [] := List.length_eq_zero.mp (Nat.le_zero.mp hm)
      subst this
      simp [stripSuffixesFuel, endsWithDigit, endsWithThesis, thesisChars]
    | succ m =>
      simp only [stripSuffixesFuel]
      split
      · rename_i hguard
        have hlt := stripSuffixStep_shorter s hguard
        exact ih m (stripSuffixStep s) (by omega) (by omega)
      · rfl

/-- The fuel-based `stripSuffixes` satisfies the defining equation of the
source's suffix-stripping `while` loop. -/
theorem stripSuffixes_unfold (s : List Char) :
    stripSuffixes s =
      if endsWithDigit s || endsWithThesis s then stripSuffixes (stripSuffixStep s) else s := by
  unfold stripSuffixes
  cases hn : s.length with
  | zero =>
    have : s = [] := List.length_eq_zero.mp hn
    subst this
    simp [stripSuffixesFuel, endsWithDigit, endsWithThesis, thesisChars]
  | succ n =>
    simp only [stripSuffixesFuel]
    split
    · rename_i hguard
      have hlt := stripSuffixStep_shorter s hguard
      exact stripSuffixesFuel_irrel n (stripSuffixStep s).length (stripSuffixStep s)
        (by omega) (Nat.le_refl _)
    · rfl

/-! ## Helper lemmas: the brace-stripping loop reaches its fixpoint -/

theorem subBraceAux_length (s : List Char) :
    (subBraceAux s none).length ≤ s.length ∧
      ∀ acc, (subBraceAux s (some acc)).length ≤ s.length + acc.length + 1 := by
  induction s with
  | nil => exact ⟨by simp [subBraceAux], fun acc => by simp [subBraceAux]⟩
  | cons c rest ih =>
    obtain ⟨ih1, ih2⟩ := ih
    constructor
    · by_cases hc : c = '\x7b'
      · have := ih2 []
        simp only [subBraceAux, if_pos hc]
        simpa using this
      · simp only [subBraceAux, if_neg hc, List.length_cons]
        omega
    · intro acc
      by_cases hc : c = '\x7b'
      · have := ih2 []
        simp only [List.length_nil] at this
        simp only [subBraceAux, if_pos hc, List.length_cons, List.length_append,
          List.length_reverse]
        omega
      · by_cases hd : c = '\x7d'
        · simp only [subBraceAux, if_neg hc, if_pos hd, List.length_cons]
          omega
        · have := ih2 (c :: acc)
          simp only [subBraceAux, if_neg hc, if_neg hd, List.length_cons] at *
          omega

theorem subBraceAux_length_lt (s : List Char) :
    (hasBraceAux s false = true → (subBraceAux s none).length < s.length) ∧
      ∀ acc, hasBraceAux s true = true →
        (subBraceAux s (some acc)).length < s.length + acc.length + 1 := by
  induction s with
  | nil => exact ⟨by simp [hasBraceAux], fun acc h => by simp [hasBraceAux] at h⟩
  | cons c rest ih =>
    obtain ⟨ih1, ih2⟩ := ih
    constructor
    · intro h
      by_cases hc : c = '\x7b'
      · have hh : hasBraceAux rest true = true := by
          simpa [hasBraceAux, hc] using h
        have := ih2 [] hh
        simp only [subBraceAux, if_pos hc, List.length_cons]
        simpa using this
      · have hh : hasBraceAux rest false = true := by
          by_cases hd : c = '\x7d'
          · simpa [hasBraceAux, hc, hd] using h
          · simpa [hasBraceAux, hc, hd] using h
        simp only [subBraceAux, if_neg hc, List.length_cons]
        have := ih1 hh
        omega
    · intro acc h
      by_cases hc : c = '\x7b'
      · have hh : hasBraceAux rest true = true := by
          simpa [hasBraceAux, hc] using h
        have := ih2 [] hh
        simp only [List.length_nil] at this
        simp only [subBraceAux, if_pos hc, List.length_cons, List.length_append,
          List.length_reverse]
        omega
      · by_cases hd : c = '\x7d'
        · have := (subBraceAux_length rest).1
          simp only [subBraceAux, if_neg hc, if_pos hd, List.length_cons]
          omega
        · have hh : hasBraceAux rest true = true := by
            simpa [hasBraceAux, hc, hd] using h
          have := ih2 (c :: acc) hh
          simp only [subBraceAux, if_neg hc, if_neg hd, List.length_cons] at *
          omega

theorem subBraceOnce_shorter (s : List Char) (h : hasBraceGroup s = true) :
    (subBraceOnce s).length < s.length :=
  (subBraceAux_length_lt s).1 h

theorem stripBracesFuel_irrel (n : Nat) : ∀ (m : Nat) (s : List Char), s.length ≤ n →
    s.length ≤ m → stripBracesFuel n s = stripBracesFuel m s := by
  induction n with
  | zero =>
    intro m s hn _
    have : s = [] := List.length_eq_zero.mp (Nat.le_zero.mp hn)
    subst this
    cases m <;> simp [stripBracesFuel, hasBraceGroup, hasBraceAux]
  | succ n ih =>
    intro m s hn hm
    cases m with
    | zero =>
      have : s = [] := List.length_eq_zero.mp (Nat.le_zero.mp hm)
      subst this
      simp [stripBracesFuel, hasBraceGroup, hasBraceAux]
    | succ m =>
      simp only [stripBracesFuel]
      split
      · rename_i hguard
        have hlt := subBraceOnce_shorter s hguard
        exact ih m (subBraceOnce s) (by omega) (by omega)
      · rfl

/-- The fuel-based `stripBraces` satisfies the defining equation of the
source's `while changed` brace-removal loop. -/
theorem stripBraces_unfold (s : List Char) :
    stripBraces s = if hasBraceGroup s then stripBraces (subBraceOnce s) else s := by
  unfold stripBraces
  cases hn : s.length with
  | zero =>
    have : s = [] := List.length_eq_zero.mp hn
    subst this
    simp [stripBracesFuel, hasBraceGroup, hasBraceAux]
  | succ n =>
    simp only [stripBracesFuel]
    split
    · rename_i hguard
      have hlt := subBraceOnce_shorter s hguard
      exact stripBracesFuel_irrel n (subBraceOnce s).length (subBraceOnce s) (by omega)
        (Nat.le_refl _)
    · rfl

/-! ## Helper lemmas: title-quoting word loop -/

theorem titleLoop_eq_any (ws : List (List Char)) :
    titleLoop ws =
      ws.any (fun w =>
        !w.contains '\x7b' && decide (1 < countLetterUpper (stripHyphenCaps w))) := by
  induction ws with
  | nil => rfl
  | cons w ws ih =>
    by_cases h1 : '\x7b' ∈ w
    · simp [titleLoop, h1, ih]
    · by_cases h2 : 1 < countLetterUpper (stripHyphenCaps w) <;>
        simp [titleLoop, h1, h2, ih]

/-! ## Helper lemmas: duplicate-id reporting -/

instance : IsTotal (String × Nat) (fun a b => b.2 ≤ a.2) := ⟨fun a b => Nat.le_total b.2 a.2⟩

instance : IsTrans (String × Nat) (fun a b => b.2 ≤ a.2) :=
  ⟨fun _ _ _ h1 h2 => Nat.le_trans h2 h1⟩

theorem reportLoop_sublist (l : List (String × Nat)) :
    List.Sublist (reportLoop l) (l.map Prod.fst) := by
  induction l with
  | nil => simp [reportLoop]
  | cons p rest ih =>
    obtain ⟨id, c⟩ := p
    simp only [reportLoop, List.map_cons]
    split
    · exact List.nil_sublist _
    · exact List.Sublist.cons₂ _ ih

theorem mem_reportLoop (l : List (String × Nat)) (hsort : l.Sorted (fun a b => b.2 ≤ a.2))
    (hpos : ∀ p ∈ l, 1 ≤ p.2) (id : String) :
    id ∈ reportLoop l ↔ ∃ c, (id, c) ∈ l ∧ 2 ≤ c := by
  induction l with
  | nil => simp [reportLoop]
  | cons p rest ih =>
    obtain ⟨x, c⟩ := p
    rw [List.sorted_cons] at hsort
    obtain ⟨hhead, hrest⟩ := hsort
    have hpos' : ∀ q ∈ rest, 1 ≤ q.2 := fun q hq => hpos q (List.mem_cons_of_mem _ hq)
    by_cases hc : c = 1
    · subst hc
      simp only [reportLoop, if_pos rfl]
      constructor
      · intro h
        simp at h
      · rintro ⟨c', hmem, hc'⟩
        rcases List.mem_cons.mp hmem with heq | hmem'
        · have : c' = 1 := congrArg Prod.snd heq
          omega
        · have := hhead _ hmem'
          simp only at this
          omega
    · have hc2 : 2 ≤ c := by
        have := hpos (x, c) (List.mem_cons_self _ _)
        simp only at this
        omega
      simp only [reportLoop, if_neg hc]
      constructor
      · intro h
        rcases List.mem_cons.mp h with rfl | h'
        · exact ⟨c, List.mem_cons_self _ _, hc2⟩
        · obtain ⟨c', h1, h2⟩ := (ih hrest hpos').mp h'
          exact ⟨c', List.mem_cons_of_mem _ h1, h2⟩
      · rintro ⟨c', hmem, hge⟩
        rcases List.mem_cons.mp hmem with heq | hmem'
        · have hx : id = x := congrArg Prod.fst heq
          exact hx ▸ List.mem_cons_self _ _
        · exact List.mem_cons_of_mem _ ((ih hrest hpos').mpr ⟨c', hmem', hge⟩)

theorem mem_idCounts (results : List (String × Entry)) (id : String) (c : Nat) :
    (id, c) ∈ idCounts results ↔
      id ∈ (idOccurrences results).dedup ∧ c = (idOccurrences results).count id := by
  simp only [idCounts, List.mem_map, Prod.mk.injEq]
  constructor
  · rintro ⟨x, hx, rfl, rfl⟩
    exact ⟨hx, rfl⟩
  · rintro ⟨hmem, rfl⟩
    exact ⟨id, hmem, rfl, rfl⟩

theorem idCounts_map_fst (results : List (String × Entry)) :
    (idCounts results).map Prod.fst = (idOccurrences results).dedup := by
  simp [idCounts, List.map_map, Function.comp_def]

theorem mem_duplicateDiagnostics (results : List (String × Entry)) (id : String) :
    id ∈ duplicateDiagnostics results ↔ 2 ≤ (idOccurrences results).count id := by
  have hperm : List.Perm (mostCommon results) (idCounts results) :=
    List.perm_insertionSort _ _
  have hsort : (mostCommon results).Sorted (fun a b => b.2 ≤ a.2) :=
    List.sorted_insertionSort _ _
  have hpos : ∀ p ∈ mostCommon results, 1 ≤ p.2 := by
    intro p hp
    have hp' : p ∈ idCounts results := hperm.mem_iff.mp hp
    obtain ⟨x, hx, rfl⟩ := List.mem_map.mp (by simpa [idCounts] using hp')
    exact List.count_pos_iff.mpr hx
  rw [duplicateDiagnostics, mem_reportLoop _ hsort hpos id]
  constructor
  · rintro ⟨c, hmem, hc⟩
    have := (mem_idCounts results id c).mp (hperm.mem_iff.mp hmem)
    omega
  · intro h
    refine ⟨(idOccurrences results).count id, hperm.mem_iff.mpr ?_, h⟩
    rw [mem_idCounts]
    exact ⟨List.mem_dedup.mpr (List.count_pos_iff.mp (by omega)), rfl⟩

theorem duplicateDiagnostics_nodup (results : List (String × Entry)) :
    (duplicateDiagnostics results).Nodup := by
  have hsub := reportLoop_sublist (mostCommon results)
  apply List.Nodup.sublist hsub
  have hperm : List.Perm ((mostCommon results).map Prod.fst) ((idCounts results).map Prod.fst) :=
    (List.perm_insertionSort _ _).map _
  rw [hperm.nodup_iff, idCounts_map_fst]
  exact List.nodup_dedup _

theorem mem_pydict {α : Type} (l : List (String × α)) (id : String) (v : α) :
    (id, v) ∈ pydict l ↔ id ∈ l.map Prod.fst ∧ lookupLast l id = some v := by
  simp only [pydict, List.mem_filterMap]
  constructor
  · rintro ⟨a, ha, hmap⟩
    rcases Option.map_eq_some'.mp hmap with ⟨w, hw, heq⟩
    obtain ⟨h1, h2⟩ := Prod.mk.injEq _ _ _ _ ▸ heq
    subst h1
    subst h2
    exact ⟨List.mem_dedup.mp ha, hw⟩
  · rintro ⟨hmem, hlook⟩
    exact ⟨id, List.mem_dedup.mpr hmem, by simp [hlook]⟩

/-! ## Helper lemmas: tag merging and the fingerprint diff -/

theorem mergeTags_step_map_fst (lib : Library) (id : String) (ts : List String) :
    ((lib.map (fun q => if q.1 = id then (q.1, { q.2 with tags := some ts }) else q)).map
      Prod.fst) = lib.map Prod.fst := by
  induction lib with
  | nil => rfl
  | cons q l ih =>
    simp only [List.map_cons, ih, List.cons.injEq, and_true]
    split <;> rfl

theorem mergeTags_map_fst (lib : Library) (tags : List (String × List String)) :
    (mergeTags lib tags).map Prod.fst = lib.map Prod.fst := by
  induction tags generalizing lib with
  | nil => rfl
  | cons p tags ih =>
    have h1 : mergeTags lib (p :: tags) =
        mergeTags
          (if (lib.map Prod.fst).contains p.1 then
            lib.map (fun q => if q.1 = p.1 then (q.1, { q.2 with tags := some p.2 }) else q)
          else lib)
          tags := rfl
    rw [h1, ih]
    split
    · exact mergeTags_step_map_fst lib p.1 p.2
    · rfl

theorem diffSymbol_eq_some_iff (lh rh : Option String) (c : Char) :
    diffSymbol lh rh = some c ↔
      ((lh = none ∧ c = '>') ∨
       (lh ≠ none ∧ rh = none ∧ c = '<') ∨
       (∃ a b, lh = some a ∧ rh = some b ∧ a ≠ b ∧ c = '!')) := by
  match lh, rh with
  | none, none => simp [diffSymbol, eq_comm]
  | none, some b => simp [diffSymbol, eq_comm]
  | some a, none => simp [diffSymbol, eq_comm]
  | some a, some b =>
    by_cases hab : a = b
    · subst hab
      simp [diffSymbol]
    · simp [diffSymbol, hab, eq_comm]

theorem mem_do_diff (localH remoteH : List (String × String)) (s : String) (c : Char) :
    (s, c) ∈ do_diff localH remoteH ↔
      s ∈ allStems localH remoteH ∧
        diffSymbol (lookupLast localH s) (lookupLast remoteH s) = some c := by
  unfold do_diff
  rw [List.mem_filterMap]
  constructor
  · rintro ⟨a, ha, hfa⟩
    rcases Option.map_eq_some'.mp hfa with ⟨c', hc', heq⟩
    have h1 : a = s := congrArg Prod.fst heq
    have h2 : c' = c := congrArg Prod.snd heq
    subst h1
    subst h2
    exact ⟨(List.mem_insertionSort _).mp ha, hc'⟩
  · rintro ⟨hmem, hsym⟩
    exact ⟨s, (List.mem_insertionSort _).mpr hmem, by simp [hsym]⟩

theorem char_toNat_inj {c d : Char} (h : c.toNat = d.toNat) : c = d := by
  rw [← Char.ofNat_toNat c, ← Char.ofNat_toNat d, h]

theorem pyStrLtChars_trans (xs : List Char) : ∀ ys zs : List Char,
    pyStrLtChars xs ys = true → pyStrLtChars ys zs = true → pyStrLtChars xs zs = true := by
  induction xs with
  | nil =>
    intro ys zs h1 h2
    cases ys with
    | nil => simp [pyStrLtChars] at h1
    | cons d ds =>
      cases zs with
      | nil => simp [pyStrLtChars] at h2
      | cons e es => simp [pyStrLtChars]
  | cons c cs ih =>
    intro ys zs h1 h2
    cases ys with
    | nil => simp [pyStrLtChars] at h1
    | cons d ds =>
      cases zs with
      | nil => simp [pyStrLtChars] at h2
      | cons e es =>
        simp only [pyStrLtChars] at h1 h2 ⊢
        by_cases hcd : c = d
        · subst hcd
          rw [if_pos rfl] at h1
          by_cases hce : c = e
          · subst hce
            rw [if_pos rfl] at h2 ⊢
            exact ih ds es h1 h2
          · rw [if_neg hce] at h2 ⊢
            exact h2
        · rw [if_neg hcd] at h1
          by_cases hde : d = e
          · subst hde
            rw [if_neg hcd]
            exact h1
          · rw [if_neg hde] at h2
            have l1 := of_decide_eq_true h1
            have l2 := of_decide_eq_true h2
            by_cases hce : c = e
            · exfalso
              subst hce
              omega
            · rw [if_neg hce]
              exact decide_eq_true (by omega)

theorem pyStrLtChars_total (xs : List Char) : ∀ ys : List Char,
    pyStrLtChars xs ys = true ∨ pyStrLtChars ys xs = true ∨ xs = ys := by
  induction xs with
  | nil =>
    intro ys
    cases ys with
    | nil => exact Or.inr (Or.inr rfl)
    | cons d ds => exact Or.inl (by simp [pyStrLtChars])
  | cons c cs ih =>
    intro ys
    cases ys with
    | nil => exact Or.inr (Or.inl (by simp [pyStrLtChars]))
    | cons d ds =>
      by_cases hcd : c = d
      · subst hcd
        rcases ih ds with h | h | h
        · exact Or.inl (by simp [pyStrLtChars, h])
        · exact Or.inr (Or.inl (by simp [pyStrLtChars, h]))
        · exact Or.inr (Or.inr (by rw [h]))
      · have hne : c.toNat ≠ d.toNat := fun he => hcd (char_toNat_inj he)
        rcases Nat.lt_or_ge c.toNat d.toNat with hlt | hge
        · exact Or.inl (by simp [pyStrLtChars, hcd, hlt])
        · have hgt : d.toNat < c.toNat := by omega
          exact Or.inr (Or.inl (by simp [pyStrLtChars, Ne.symm hcd, hgt]))

instance : IsTrans String (fun a b => pyStrLe a b = true) := by
  constructor
  intro a b c h1 h2
  simp only [pyStrLe, pyStrLt, Bool.or_eq_true, beq_iff_eq] at h1 h2 ⊢
  rcases h1 with h1 | rfl
  · rcases h2 with h2 | rfl
    · exact Or.inl (pyStrLtChars_trans _ _ _ h1 h2)
    · exact Or.inl h1
  · exact h2

instance : IsTotal String (fun a b => pyStrLe a b = true) := by
  constructor
  intro a b
  simp only [pyStrLe, pyStrLt, Bool.or_eq_true, beq_iff_eq]
  rcases pyStrLtChars_total a.toList b.toList with h | h | h
  · exact Or.inl (Or.inl h)
  · exact Or.inr (Or.inl h)
  · refine Or.inl (Or.inr ?_)
    have hd : a.data = b.data := h
    cases a
    cases b
    exact congrArg String.mk hd

theorem do_diff_sorted (localH remoteH : List (String × String)) :
    (do_diff localH remoteH).Pairwise (fun a b => pyStrLt a.1 b.1 = true) := by
  unfold do_diff
  rw [List.pairwise_filterMap]
  have hsorted : (List.insertionSort (fun a b => pyStrLe a b = true)
      (allStems localH remoteH)).Sorted (fun a b : String => pyStrLe a b = true) :=
    List.sorted_insertionSort _ _
  have hnodup : (List.insertionSort (fun a b => pyStrLe a b = true)
      (allStems localH remoteH)).Nodup :=
    (List.perm_insertionSort _ _).nodup_iff.mpr (List.nodup_dedup _)
  have hlt : (List.insertionSort (fun a b => pyStrLe a b = true)
      (allStems localH remoteH)).Pairwise (fun a b : String => pyStrLt a b = true) := by
    refine (hsorted.and hnodup).imp ?_
    intro a b h
    have h1 := h.1
    simp only [pyStrLe, Bool.or_eq_true, beq_iff_eq] at h1
    rcases h1 with h1 | h1
    · exact h1
    · exact absurd h1 h.2
  refine hlt.imp ?_
  intro a b hab p hp q hq
  rcases Option.map_eq_some'.mp hp with ⟨c1, _, heq1⟩
  rcases Option.map_eq_some'.mp hq with ⟨c2, _, heq2⟩
  have h1 : p.1 = a := (congrArg Prod.fst heq1).symm ▸ rfl
  have h2 : q.1 = b := (congrArg Prod.fst heq2).symm ▸ rfl
  rw [h1, h2]
  exact hab

/-! ## Claim theorems -/

/-- Claim C1, counterexample: on the spec's own reconciliation example
(local stems a, b, c with hashes 1, 2, 3; remote stems a, b, d with
hashes 1, 9, 4) the code prints `<` for the local-only stem `c` and `>`
for the remote-only stem `d`, the opposite of the claimed symbols. -/
theorem do_diff_example_refutes_claim :
    do_diff [("a", "1"), ("b", "2"), ("c", "3")] [("a", "1"), ("b", "9"), ("d", "4")] =
      [("b", '!'), ("c", '<'), ("d", '>')] ∧
    ("c", '>') ∉ do_diff [("a", "1"), ("b", "2"), ("c", "3")] [("a", "1"), ("b", "9"), ("d", "4")] := by
  constructor <;> decide

/-- Claim C1, amended: for every stem in the union of the two hash maps,
`do_diff` prints `>` when the local side lacks the stem (remote-only),
`<` when only the remote side lacks it (local-only), `!` when both sides
have it with differing hashes, and nothing when the hashes agree; the
printed lines are strictly sorted by stem. -/
theorem do_diff_characterization (localH remoteH : List (String × String)) :
    (∀ s c, (s, c) ∈ do_diff localH remoteH ↔
      s ∈ allStems localH remoteH ∧
        ((lookupLast localH s = none ∧ c = '>') ∨
         (lookupLast localH s ≠ none ∧ lookupLast remoteH s = none ∧ c = '<') ∨
         (∃ lh rh, lookupLast localH s = some lh ∧ lookupLast remoteH s = some rh ∧
           lh ≠ rh ∧ c = '!'))) ∧
    (do_diff localH remoteH).Pairwise (fun a b => pyStrLt a.1 b.1 = true) := by
  refine ⟨?_, do_diff_sorted localH remoteH⟩
  intro s c
  rw [mem_do_diff, diffSymbol_eq_some_iff]

/-- Witness for C1: a stem present only locally is printed with `<`. -/
theorem do_diff_characterization_witness :
    ("a", '<') ∈ do_diff [("a", "1")] [] :=
  ((do_diff_characterization [("a", "1")] []).1 "a" '<').mpr
    ⟨by decide, Or.inr (Or.inl ⟨by decide, by decide, rfl⟩)⟩

/-- Claim C2, counterexample: after the tag-file lines `a x` and `a y`,
`_read_tags` returns only the tags of the last line for id `a`; the tag
`x` from the earlier line is lost, so the result is not the union of the
two lines' tag sets. -/
theorem read_tags_union_counterexample :
    readTags ["a x".toList, "a y".toList] "a".toList = some ["y".toList] ∧
    "x".toList ∉ (readTags ["a x".toList, "a y".toList] "a".toList).getD [] := by
  constructor <;> decide

/-- Claim C2, amended: `_read_tags` assigns `result[entry_id] = set(tags)`
per line, so for each entry-id it yields exactly the tag set of the *last*
line whose first token is that id, not the union over all its lines. -/
theorem read_tags_last_line_wins (pre post : List (List Char)) (line id : List Char)
    (tags : List (List Char)) (h1 : parseTagLine line = some (id, tags))
    (h2 : ∀ l ∈ post, ∀ ts, parseTagLine l ≠ some (id, ts)) :
    readTags (pre ++ line :: post) id = some tags := by
  unfold readTags tagEntries
  rw [List.filterMap_append, List.filterMap_cons_some h1]
  apply lookupLast_last
  intro p hp
  rcases List.mem_filterMap.mp hp with ⟨l, hl, hpl⟩
  intro hfst
  apply h2 l hl p.2
  have hpl' : parseTagLine l = some (p.1, p.2) := by simpa using hpl
  rw [hfst] at hpl'
  exact hpl'

/-- Witness for C2: with the two lines `a x` and `a y`, reading gives the
second line's tag set. -/
theorem read_tags_last_line_wins_witness :
    readTags (["a x".toList] ++ "a y".toList :: []) "a".toList = some ["y".toList] :=
  read_tags_last_line_wins ["a x".toList] [] "a y".toList "a".toList ["y".toList]
    (by decide) (by simp)

/-- Claim C3, code bug: the claim (and spec sections 3, 4.4 and 7) says
every lint check skips an entry that lacks an attribute the check needs
and the lint pass never aborts, but the ID-derivation check reads
`entry['author']`, `entry['year']` and `entry['title']` unconditionally
(source lines 258 and 263), and the title-quoting check reads
`entry['title']` (line 280); on a library whose only entry has no
`author`, `do_lint` raises `KeyError` and aborts. -/
theorem do_lint_aborts_on_missing_author :
    do_lint [("x2020y", ⟨[("type", "misc"), ("year", "2020"), ("title", "Widgets")], none⟩)]
        [] =
      .error "KeyError: author in x2020y" := by
  rfl

/-- Claim C4, counterexample: the title `ABCD` (a single all-capitals
word) is flagged by the code, because the source counts non-overlapping
matches of `[A-Za-z][A-Z]` (any letter followed by a capital), while the
claim's condition — two or more occurrences of a *lowercase* letter
immediately followed by an uppercase letter — does not hold for it. -/
theorem title_check_spec_mismatch :
    titleFlag "ABCD".toList = true ∧ specTitleFlag "ABCD".toList = false := by
  constructor <;> decide

/-- Claim C4, amended: the title-quoting check flags an entry's title if
and only if, after repeatedly removing brace-enclosed substrings, some
remaining whitespace-delimited word that contains no opening brace has,
after stripping hyphen/slash-adjacent single capital letters, two or more
non-overlapping occurrences of a letter of either case immediately
followed by an uppercase letter; at most one diagnostic is printed per
offending entry. -/
theorem title_check_characterization (id : String) (entry : Entry) (t : String)
    (h : getAttr entry "title" = some t) :
    ∃ ds, titleCheckEntry id entry = .ok ds ∧ ds.length ≤ 1 ∧
      (ds ≠ [] ↔ ∃ w ∈ splitWs (stripBraces t.toList),
        ('\x7b' ∉ w) ∧ 1 < countLetterUpper (stripHyphenCaps w)) := by
  refine ⟨if titleFlag t.toList then ["unquoted title for " ++ id] else [], ?_, ?_, ?_⟩
  · simp [titleCheckEntry, h]
  · split <;> simp
  · by_cases hflag : titleFlag t.toList
    · rw [if_pos hflag]
      constructor
      · intro _
        rw [titleFlag, titleLoop_eq_any, List.any_eq_true] at hflag
        obtain ⟨w, hw, hcond⟩ := hflag
        simp only [Bool.and_eq_true, Bool.not_eq_true', decide_eq_true_eq] at hcond
        refine ⟨w, hw, ?_, hcond.2⟩
        intro hmem
        have hc := hcond.1
        simp only [List.contains, List.elem_eq_mem, decide_eq_false_iff_not] at hc
        exact hc hmem
      · intro _
        simp
    · rw [if_neg hflag]
      constructor
      · intro hne
        exact absurd rfl hne
      · rintro ⟨w, hw, hnb, hcount⟩
        exfalso
        apply hflag
        rw [titleFlag, titleLoop_eq_any, List.any_eq_true]
        refine ⟨w, hw, ?_⟩
        simp only [Bool.and_eq_true, Bool.not_eq_true', decide_eq_true_eq]
        exact ⟨by simpa using hnb, hcount⟩

/-- Witness for C4: an ordinary single-word title produces no diagnostic
and satisfies the characterization. -/
theorem title_check_characterization_witness :
    ∃ ds, titleCheckEntry "smith2020widgets" ⟨[("title", "Widgets")], none⟩ = .ok ds ∧
      ds.length ≤ 1 ∧
      (ds ≠ [] ↔ ∃ w ∈ splitWs (stripBraces "Widgets".toList),
        ('\x7b' ∉ w) ∧ 1 < countLetterUpper (stripHyphenCaps w)) :=
  title_check_characterization "smith2020widgets" ⟨[("title", "Widgets")], none⟩ "Widgets" rfl

/-- Claim C5: for any parsed entry sequence, every id occurring at least
twice is named by exactly one `duplicate IDs` diagnostic (membership in
the diagnostic list is equivalent to a count of at least two, and the
list has no duplicates), and the returned dict maps such an id to the
attributes of its last occurrence, uniquely. -/
theorem duplicate_id_handling (results : List (String × Entry)) :
    (∀ id, id ∈ duplicateDiagnostics results ↔ 2 ≤ (results.map Prod.fst).count id) ∧
    (duplicateDiagnostics results).Nodup ∧
    (∀ id e pre post, results = pre ++ (id, e) :: post → (∀ p ∈ post, p.1 ≠ id) →
      (id, e) ∈ pydict results ∧ ∀ e', (id, e') ∈ pydict results → e' = e) := by
  refine ⟨fun id => mem_duplicateDiagnostics results id, duplicateDiagnostics_nodup results, ?_⟩
  rintro id e pre post rfl hpost
  have hlook : lookupLast (pre ++ (id, e) :: post) id = some e :=
    lookupLast_last pre post id e hpost
  constructor
  · rw [mem_pydict]
    exact ⟨List.mem_map.mpr ⟨(id, e), by simp, rfl⟩, hlook⟩
  · intro e' he'
    have h2 := ((mem_pydict _ id e').mp he').2
    rw [hlook] at h2
    exact (Option.some.inj h2).symm

/-- Witness for C5: two entries sharing id `a`; the dict keeps the second
entry and the diagnostic list names `a`. -/
theorem duplicate_id_handling_witness :
    ("a", ({ attrs := [("type", "book")], tags := none } : Entry)) ∈
        pydict [("a", ⟨[("type", "article")], none⟩), ("a", ⟨[("type", "book")], none⟩)] ∧
      "a" ∈ duplicateDiagnostics
        [("a", ⟨[("type", "article")], none⟩), ("a", ⟨[("type", "book")], none⟩)] := by
  have h := duplicate_id_handling
    [("a", ⟨[("type", "article")], none⟩), ("a", ⟨[("type", "book")], none⟩)]
  refine ⟨(h.2.2 "a" ⟨[("type", "book")], none⟩ [("a", ⟨[("type", "article")], none⟩)] []
    rfl (by simp)).1, (h.1 "a").mpr (by decide)⟩

/-- Claim C6: with `use_cache`, when the cache file exists and is
strictly newer than the source, the cached library is returned with the
parser not invoked and nothing written; otherwise a parse error
propagates unchanged, and a successful parse is returned with the result
serialized to the cache and the cache's parent directories created. -/
theorem load_library_cache_behavior (u : Bool) (st : FsState) (parse : Except String Library) :
    (u = true ∧ st.cacheExists = true ∧ st.sourceMtime < st.cacheMtime →
      loadLibrary u st parse = .ok ⟨st.cachedLibrary, false, none, false⟩) ∧
    (¬(u = true ∧ st.cacheExists = true ∧ st.sourceMtime < st.cacheMtime) →
      (∀ e, parse = .error e → loadLibrary u st parse = .error e) ∧
      (∀ lib, parse = .ok lib → loadLibrary u st parse = .ok ⟨lib, true, some lib, true⟩)) := by
  constructor
  · intro h
    simp only [loadLibrary, if_pos h]
  · intro h
    constructor
    · rintro e rfl
      simp only [loadLibrary, if_neg h]
    · rintro lib rfl
      simp only [loadLibrary, if_neg h]

/-- Witness for C6: a fresh cache is returned even when parsing would
fail, showing the parser is not consulted. -/
theorem load_library_cache_behavior_witness :
    loadLibrary true ⟨true, 5, 3, []⟩ (.error "parse failure") = .ok ⟨[], false, none, false⟩ :=
  (load_library_cache_behavior true ⟨true, 5, 3, []⟩ (.error "parse failure")).1
    ⟨rfl, rfl, by decide⟩

/-- Claim C7: for an entry with `author`, `year` and `title`, the
ID-derivation check emits its `suspicious ID` diagnostic exactly when the
suffix-stripped current id, lowercased, is not a prefix of the lowercased
derived id (first-author surname + year + title with accent escapes
reduced and non-alphanumerics removed). -/
theorem id_check_diagnostic_iff (cid author year title : String) (entry : Entry)
    (ha : getAttr entry "author" = some author) (hy : getAttr entry "year" = some year)
    (ht : getAttr entry "title" = some title) :
    idCheckEntry cid entry = .ok ["suspicious ID: " ++ cid] ↔
      ((stripSuffixes cid.toList).map Char.toLower).isPrefixOf
          ((deriveId author year title).map Char.toLower) = false := by
  simp only [idCheckEntry, ha, hy, ht]
  by_cases hs : idSuspicious cid author year title
  · rw [if_pos hs]
    simp only [idSuspicious, Bool.not_eq_true'] at hs
    exact iff_of_true rfl hs
  · rw [if_neg hs]
    simp only [idSuspicious, Bool.not_eq_true', Bool.not_eq_false] at hs
    refine iff_of_false (by simp) ?_
    simp only [Bool.not_eq_false]
    exact hs

/-- Witness for C7: the spec's example entry `smith2020widgets` with
author `Smith, John`, year `2020`, title `Widgets`: the derived id is a
prefix match and no diagnostic is produced. -/
theorem id_check_diagnostic_iff_witness :
    (idCheckEntry "smith2020widgets"
        ⟨[("type", "article"), ("author", "Smith, John"), ("year", "2020"),
          ("title", "Widgets")], none⟩ =
        .ok ["suspicious ID: smith2020widgets"] ↔
      ((stripSuffixes "smith2020widgets".toList).map Char.toLower).isPrefixOf
          ((deriveId "Smith, John" "2020" "Widgets").map Char.toLower) = false) ∧
    idCheckEntry "smith2020widgets"
        ⟨[("type", "article"), ("author", "Smith, John"), ("year", "2020"),
          ("title", "Widgets")], none⟩ =
      .ok [] := by
  refine ⟨id_check_diagnostic_iff "smith2020widgets" "Smith, John" "2020" "Widgets" _
    rfl rfl rfl, ?_⟩
  rfl

/-- Claim C8: an author/editor value whose `' and '`-separated persons
each contain a comma or are organizational exceptions produces no
name-format diagnostic, and a diagnostic is produced only when some
person neither is an exception nor contains a comma. -/
theorem name_check_conforming (value : String) :
    ((∀ p ∈ splitAnd value.toList, (',' ∈ p) ∨ isWeird (String.mk p) = true) →
      nameCheckFlags value = false) ∧
    (nameCheckFlags value = true →
      ∃ p ∈ splitAnd value.toList, (',' ∉ p) ∧ isWeird (String.mk p) = false) := by
  constructor
  · intro h
    unfold nameCheckFlags
    by_cases hw : isWeird value = true
    · rw [if_pos hw]
    · rw [if_neg hw]
      refine Bool.eq_false_iff.mpr ?_
      intro hany
      rw [List.any_eq_true] at hany
      obtain ⟨p, hp, hcond⟩ := hany
      simp only [Bool.and_eq_true, Bool.not_eq_true'] at hcond
      rcases h p hp with hcomma | hweird
      · have hc := hcond.2
        simp only [List.contains, List.elem_eq_mem, decide_eq_false_iff_not] at hc
        exact hc hcomma
      · rw [hweird] at hcond
        exact absurd hcond.1 (by simp)
  · intro hflag
    unfold nameCheckFlags at hflag
    by_cases hw : isWeird value = true
    · rw [if_pos hw] at hflag
      exact absurd hflag (by simp)
    · rw [if_neg hw, List.any_eq_true] at hflag
      obtain ⟨p, hp, hcond⟩ := hflag
      simp only [Bool.and_eq_true, Bool.not_eq_true'] at hcond
      refine ⟨p, hp, ?_, hcond.1⟩
      intro hmem
      have hc := hcond.2
      simp only [List.contains, List.elem_eq_mem, decide_eq_false_iff_not] at hc
      exact hc hmem

/-- Witness for C8: two persons already in `Last, First` form produce no
diagnostic. -/
theorem name_check_conforming_witness :
    nameCheckFlags "Smith, John and Jones, Mary" = false :=
  (name_check_conforming "Smith, John and Jones, Mary").1 (by decide)

/-- Claim C9: on a well-formed (newline-terminated) tag file whose lines,
id and tags contain no newline, `do_tag`'s write appends exactly one line
— the id followed by the tags, space-separated — and every existing line
is preserved unchanged in place. -/
theorem do_tag_appends_single_line (ls : List (List Char)) (stem : List Char)
    (tags : List (List Char)) (hls : ∀ l ∈ ls, ('\n' : Char) ∉ l)
    (hstem : ('\n' : Char) ∉ stem) (htags : ∀ t ∈ tags, ('\n' : Char) ∉ t) :
    fileLines (do_tag_append (renderLines ls) stem tags) = ls ++ [tagLine stem tags] := by
  have hline : ('\n' : Char) ∉ tagLine stem tags := by
    apply joinSpaces_no_newline
    intro w hw
    rcases List.mem_cons.mp hw with rfl | hw'
    · exact hstem
    · exact htags w hw'
  have hrw : do_tag_append (renderLines ls) stem tags =
      renderLines (ls ++ [tagLine stem tags]) := by
    rw [renderLines_concat]
    simp [do_tag_append, List.append_assoc]
  rw [hrw]
  apply fileLines_renderLines
  intro l hl
  rcases List.mem_append.mp hl with h1 | h2
  · exact hls l h1
  · rcases List.mem_cons.mp h2 with rfl | h3
    · exact hline
    · simp at h3

/-- Witness for C9: appending the tag line `id1 t1` to a one-line file. -/
theorem do_tag_appends_single_line_witness :
    fileLines (do_tag_append (renderLines ["x".toList]) "id1".toList ["t1".toList]) =
      ["x".toList] ++ [tagLine "id1".toList ["t1".toList]] :=
  do_tag_appends_single_line ["x".toList] "id1".toList ["t1".toList] (by decide) (by decide)
    (by decide)

/-- Claim C10: whenever `read_library` succeeds, its result is the tag
merge over a base library (the cached one on a cache hit, the parse
result otherwise); the merge preserves the id set exactly, and a tag id
with no matching entry creates no entry. -/
theorem read_library_preserves_ids (u : Bool) (st : FsState) (parse : Except String Library)
    (tags : List (String × List String)) (out : ReadResult)
    (h : read_libraryM u st parse tags = .ok out) :
    ∃ base : Library, (base = st.cachedLibrary ∨ parse = .ok base) ∧
      out.library = mergeTags base tags ∧
      out.library.map Prod.fst = base.map Prod.fst ∧
      ∀ id, id ∉ base.map Prod.fst → lookupLast out.library id = none := by
  unfold read_libraryM at h
  cases hl : loadLibrary u st parse with
  | error e =>
    rw [hl] at h
    exact absurd h (by simp)
  | ok r =>
    rw [hl] at h
    have hout := Except.ok.inj h
    subst hout
    refine ⟨r.library, ?_, rfl, mergeTags_map_fst _ _, ?_⟩
    · unfold loadLibrary at hl
      split at hl
      · left
        have h3 := Except.ok.inj hl
        exact congrArg ReadResult.library h3.symm
      · cases hp : parse with
        | error e =>
          rw [hp] at hl
          exact absurd hl (by simp)
        | ok lib =>
          rw [hp] at hl
          right
          have h3 := Except.ok.inj hl
          rw [← h3]
    · intro id hid
      rw [lookupLast_eq_none]
      intro p hp hfst
      apply hid
      rw [← mergeTags_map_fst r.library tags]
      exact List.mem_map.mpr ⟨p, hp, hfst⟩

/-- Witness for C10: a one-entry library merged with a tag line for an
unknown id keeps exactly its own id. -/
theorem read_library_preserves_ids_witness :
    ∃ base : Library,
      (base = (⟨false, 0, 0, []⟩ : FsState).cachedLibrary ∨
        (Except.ok [("a", (⟨[("type", "misc")], none⟩ : Entry))] : Except String Library) =
          .ok base) ∧
      (⟨[("a", ⟨[("type", "misc")], none⟩)], true,
          some [("a", ⟨[("type", "misc")], none⟩)], true⟩ : ReadResult).library =
        mergeTags base [("b", ["t"])] ∧
      (⟨[("a", ⟨[("type", "misc")], none⟩)], true,
          some [("a", ⟨[("type", "misc")], none⟩)], true⟩ : ReadResult).library.map Prod.fst =
        base.map Prod.fst ∧
      ∀ id, id ∉ base.map Prod.fst →
        lookupLast (⟨[("a", ⟨[("type", "misc")], none⟩)], true,
          some [("a", ⟨[("type", "misc")], none⟩)], true⟩ : ReadResult).library id = none :=
  read_library_preserves_ids false ⟨false, 0, 0, []⟩
    (.ok [("a", ⟨[("type", "misc")], none⟩)]) [("b", ["t"])]
    ⟨[("a", ⟨[("type", "misc")], none⟩)], true, some [("a", ⟨[("type", "misc")], none⟩)], true⟩
    rfl
